import Mathlib

/-!
Verification development for the Kalshi Sentinel Position Valuation &
Paper-Trade Proposal Engine.

The repository checkout contains only the frontend dashboard
(frontend/src/KalshiSentinelDashboard.jsx), a README and a deployment
template; the backend engine (position ledger, valuation calculator,
trade proposal engine) is not present.  Definitions for those components
are therefore modelled from the specification document, as marked on
each definition.  Frontend behaviour (the paper-run request body and the
market search filter) is embedded directly from the JSX source.
-/

/-- Side of a binary event contract (spec section 3: `yes`|`no`). -/
inductive Side where
  | yes
  | no
deriving DecidableEq, Repr

/-- The opposite side of a binary contract. -/
def Side.other : Side → Side
  | .yes => .no
  | .no => .yes

/-- Modelled from the spec: a candidate opportunity as delivered by the
external candidate/signal source (spec section 6): ticker, side, limit
price, close time, and rank score.  The close time is expressed as hours
from now; the rank score is carried but not consulted (candidates arrive
pre-ranked, spec section 4.3). -/
structure Candidate where
  ticker : String
  side : Side
  limit_price_cents : Nat
  close_in_hours : Int
  rank_score : Int
deriving DecidableEq, Repr

/-- Lifecycle state of a proposed trade (spec section 4.4). -/
inductive TradeStatus where
  | proposed
  | accepted
  | rejected
  | expired
deriving DecidableEq, Repr

/-- Modelled from the spec: a proposed trade record (spec section 3).
The unique id and timestamp are assigned by the persistence layer and
wall clock, which are external collaborators, so they are not part of
this model. -/
structure ProposedTrade where
  ticker : String
  side : Side
  limit_price_cents : Nat
  contracts : Nat
  estimated_max_loss_cents : Nat
  status : TradeStatus
deriving DecidableEq, Repr

/-- Error raised by the proposal engine on invalid input (spec section 4.3). -/
inductive ProposeError where
  | invalidBudget
  | invalidHorizon
deriving DecidableEq, Repr

/-- Modelled from the spec: horizon eligibility (spec section 4.3) —
candidates closing after `now + horizon_hours` are excluded, i.e. a
candidate is eligible when its close time falls within the horizon. -/
def candEligible (horizon_hours : Int) (c : Candidate) : Bool :=
  c.close_in_hours ≤ horizon_hours

/-- Build the proposal record for a candidate at a given contract count;
estimated max loss is contracts × limit price (spec section 3). -/
def mkTrade (c : Candidate) (contracts : Nat) : ProposedTrade :=
  { ticker := c.ticker
    side := c.side
    limit_price_cents := c.limit_price_cents
    contracts := contracts
    estimated_max_loss_cents := contracts * c.limit_price_cents
    status := .proposed }

/-- Modelled from the spec: the greedy bounded allocation loop of the
trade proposal engine (spec section 4.3).  Walks the ranked candidate
list in order; for each candidate takes the largest integer contract
count whose cost fits the remaining budget (Nat division), skips a
candidate whose one-contract cost exceeds the remaining budget (the
division yields 0), and stops once the remaining accept count reaches 0
or the list is exhausted. -/
def greedyAlloc : List Candidate → Nat → Nat → List ProposedTrade
  | _, _, 0 => []
  | [], _, _ => []
  | c :: cs, b, k + 1 =>
    if b / c.limit_price_cents = 0 then
      greedyAlloc cs b (k + 1)
    else
      mkTrade c (b / c.limit_price_cents) ::
        greedyAlloc cs (b - b / c.limit_price_cents * c.limit_price_cents) k

/-- Modelled from the spec: `propose_trades` (spec section 4.3), the
entry point of the trade proposal engine, which is absent from the
checkout.  Validates budget then horizon, filters candidates to the
horizon (order preserved, so equal-rank candidates stay in received
order), and runs the greedy bounded allocation. -/
def propose_trades (horizon_hours budget_cents : Int) (max_trades : Nat)
    (candidates : List Candidate) : Except ProposeError (List ProposedTrade) :=
  if budget_cents < 0 then .error .invalidBudget
  else if horizon_hours < 0 then .error .invalidHorizon
  else .ok (greedyAlloc (candidates.filter (candEligible horizon_hours))
      budget_cents.toNat max_trades)

/-- Modelled from the spec: a quote snapshot entry (spec section 3);
each field is an integer in cents or absent/unknown. -/
structure Quote where
  yes_bid : Option Nat
  yes_ask : Option Nat
  no_bid : Option Nat
  no_ask : Option Nat
deriving DecidableEq, Repr

/-- The provider-side quote used to liquidate a position: a YES position
exits against yes_bid, a NO position against no_bid (spec section 3). -/
def Quote.exitBid (q : Quote) : Side → Option Nat
  | .yes => q.yes_bid
  | .no => q.no_bid

/-- Modelled from the spec: an open position record (spec section 3). -/
structure Position where
  ticker : String
  side : Side
  qty : Nat
  avg_entry_cents : Nat
  cost_basis_cents : Nat
deriving DecidableEq, Repr

/-- Modelled from the spec: a derived valuation row (spec section 3);
unknown quote data propagates as `none`, never as zero. -/
structure ValuationRow where
  ticker : String
  side : Side
  qty : Nat
  avg_entry_cents : Nat
  cost_basis_cents : Nat
  best_exit_bid : Option Nat
  implied_exit_ask : Option Int
  liq_value_cents : Option Int
  unreal_pnl_cents : Option Int
deriving DecidableEq, Repr

/-- Aggregate valuation totals (spec sections 3 and 6). -/
structure Totals where
  cost_basis_cents : Int
  liq_value_cents : Int
  unreal_pnl_cents : Int
deriving DecidableEq, Repr

/-- A valuation snapshot: rows, totals, and the count of rows excluded
from totals because of missing quotes (spec section 4.2). -/
structure ValuationSnapshot where
  rows : List ValuationRow
  totals : Totals
  excluded_rows : Nat
deriving DecidableEq, Repr

/-- The side-selected exit quote for a position under a quote source. -/
def exitQuote (quotes : String → Option Quote) (p : Position) : Option Nat :=
  (quotes p.ticker).bind (fun q => q.exitBid p.side)

/-- Modelled from the spec: one valuation row (spec section 4.2).
liq_value_cents = qty × best_exit_bid and unreal_pnl_cents =
liq_value_cents − cost_basis_cents when the exit quote is known;
implied_exit_ask is 100 minus the opposite-side best bid. -/
def mkRow (quotes : String → Option Quote) (p : Position) : ValuationRow :=
  { ticker := p.ticker
    side := p.side
    qty := p.qty
    avg_entry_cents := p.avg_entry_cents
    cost_basis_cents := p.cost_basis_cents
    best_exit_bid := exitQuote quotes p
    implied_exit_ask :=
      ((quotes p.ticker).bind (fun q => q.exitBid p.side.other)).map
        (fun b => (100 : Int) - b)
    liq_value_cents := (exitQuote quotes p).map (fun b => (p.qty : Int) * b)
    unreal_pnl_cents := (exitQuote quotes p).map
      (fun b => (p.qty : Int) * b - (p.cost_basis_cents : Int)) }

/-- Totals sum only over rows whose liquidation value and unrealized
P&L are known (spec section 4.2). -/
def totalsOf (rows : List ValuationRow) : Totals :=
  rows.foldr
    (fun r t =>
      match r.liq_value_cents, r.unreal_pnl_cents with
      | some l, some u =>
        { cost_basis_cents := (r.cost_basis_cents : Int) + t.cost_basis_cents
          liq_value_cents := l + t.liq_value_cents
          unreal_pnl_cents := u + t.unreal_pnl_cents }
      | _, _ => t)
    { cost_basis_cents := 0, liq_value_cents := 0, unreal_pnl_cents := 0 }

/-- Modelled from the spec: `value_portfolio` (spec section 4.2), the
valuation calculator, which is absent from the checkout.  Produces one
row per position, totals over rows with known quotes only, and the
count of rows excluded from totals. -/
def value_portfolio (positions : List Position)
    (quotes : String → Option Quote) : ValuationSnapshot :=
  let rows := positions.map (mkRow quotes)
  { rows := rows
    totals := totalsOf rows
    excluded_rows := (rows.filter (fun r => r.best_exit_bid.isNone)).length }

/-- Position payload stored in the ledger under a (ticker, side) key. -/
structure LedgerPos where
  qty : Nat
  avg_entry_cents : Nat
  cost_basis_cents : Nat
deriving DecidableEq, Repr

/-- The position ledger: an association list from (ticker, side) to the
held position (spec section 9 recommends an explicit mapping store). -/
abbrev Ledger := List ((String × Side) × LedgerPos)

/-- Error raised when a fill would drive quantity negative (spec 4.1). -/
inductive FillError where
  | invalidFill
deriving DecidableEq, Repr

/-- Look up the position stored under a key. -/
def lookupPos : Ledger → String × Side → Option LedgerPos
  | [], _ => none
  | (k, p) :: rest, key => if k = key then some p else lookupPos rest key

/-- Replace the position stored under a key, or append it. -/
def setPos : Ledger → String × Side → LedgerPos → Ledger
  | [], key, p => [(key, p)]
  | (k, q) :: rest, key, p =>
    if k = key then (key, p) :: rest else (k, q) :: setPos rest key p

/-- Remove the position stored under a key. -/
def removePos : Ledger → String × Side → Ledger
  | [], _ => []
  | (k, q) :: rest, key =>
    if k = key then rest else (k, q) :: removePos rest key

/-- Modelled from the spec: `apply_fill` (spec section 4.1), the ledger
mutator, which is absent from the checkout.  Positive deltas are
same-side additions with weighted-average entry (integer division,
fractional cents rounded down per spec section 6); negative deltas
reduce quantity without flipping side, deleting the position at zero;
a delta that would drive quantity negative fails with InvalidFillError.
Cost basis is cached as qty × avg_entry per the spec section 3
invariant. -/
def apply_fill (led : Ledger) (ticker : String) (side : Side)
    (qty_delta : Int) (price_cents : Nat) : Except FillError Ledger :=
  match lookupPos led (ticker, side) with
  | none =>
    if qty_delta < 0 then .error .invalidFill
    else if qty_delta = 0 then .ok led
    else .ok (setPos led (ticker, side)
      { qty := qty_delta.toNat
        avg_entry_cents := price_cents
        cost_basis_cents := qty_delta.toNat * price_cents })
  | some p =>
    if 0 ≤ qty_delta then
      .ok (setPos led (ticker, side)
        { qty := p.qty + qty_delta.toNat
          avg_entry_cents :=
            (p.cost_basis_cents + qty_delta.toNat * price_cents) /
              (p.qty + qty_delta.toNat)
          cost_basis_cents :=
            (p.qty + qty_delta.toNat) *
              ((p.cost_basis_cents + qty_delta.toNat * price_cents) /
                (p.qty + qty_delta.toNat)) })
    else if (p.qty : Int) + qty_delta < 0 then .error .invalidFill
    else if (p.qty : Int) + qty_delta = 0 then
      .ok (removePos led (ticker, side))
    else
      .ok (setPos led (ticker, side)
        { qty := ((p.qty : Int) + qty_delta).toNat
          avg_entry_cents := p.avg_entry_cents
          cost_basis_cents :=
            ((p.qty : Int) + qty_delta).toNat * p.avg_entry_cents })

/-- The ledger state after a fill attempt: unchanged when the fill is
rejected. -/
def applyFillOrKeep (led : Ledger) (ticker : String) (side : Side)
    (qty_delta : Int) (price_cents : Nat) : Ledger :=
  match apply_fill led ticker side qty_delta price_cents with
  | .ok led2 => led2
  | .error _ => led

/-- One fill request in a sequence of ledger mutations. -/
structure FillReq where
  ticker : String
  side : Side
  qty_delta : Int
  price_cents : Nat
deriving DecidableEq, Repr

/-- Apply a sequence of fills, failing on the first rejected fill. -/
def runFills : Ledger → List FillReq → Except FillError Ledger
  | led, [] => .ok led
  | led, f :: fs =>
    match apply_fill led f.ticker f.side f.qty_delta f.price_cents with
    | .error e => .error e
    | .ok led2 => runFills led2 fs

/-- The ledger invariant (spec section 3): every stored position has
cost_basis_cents = qty × avg_entry_cents. -/
def WfLedger (led : Ledger) : Prop :=
  ∀ kp ∈ led, kp.2.cost_basis_cents = kp.2.qty * kp.2.avg_entry_cents

/-- The paper-run request body built by the dashboard
(KalshiSentinelDashboard.jsx line 279): a JSON object with exactly the
keys hours_ahead, budget_dollars, max_trades carrying the current
numeric input values, embedded here as an ordered key-value list. -/
def paperRunBody (hoursAhead budgetDollars maxTrades : ℚ) :
    List (String × ℚ) :=
  [("hours_ahead", hoursAhead),
   ("budget_dollars", budgetDollars),
   ("max_trades", maxTrades)]

/-- Modelled from the spec: the dollars-to-cents conversion applied at
the engine boundary (spec section 6), which is absent from the checkout:
budget_cents = round(budget_dollars * 100). -/
def budgetCentsOfDollars (budget_dollars : ℚ) : Int :=
  round (budget_dollars * 100)

/-- A loaded market record as consumed by the dashboard search filter;
title and ticker may be absent (KalshiSentinelDashboard.jsx lines
477-481 default them to the empty string). -/
structure Market where
  title : Option String
  ticker : Option String
deriving DecidableEq, Repr

/-- Lowercase a string character by character, as the JS
toLowerCase call does on the ASCII data in play. -/
def jsLower (s : String) : String :=
  String.mk (s.data.map Char.toLower)

/-- The JS String.trim call: remove whitespace from both ends. -/
def jsTrim (s : String) : String :=
  String.mk
    (((s.data.dropWhile Char.isWhitespace).reverse.dropWhile
      Char.isWhitespace).reverse)

/-- Whether the first character list starts the second. -/
def leadsWith : List Char → List Char → Bool
  | [], _ => true
  | _ :: _, [] => false
  | a :: as, b :: bs => a == b && leadsWith as bs

/-- Whether the first character list occurs contiguously in the second
(the JS String.includes containment). -/
def hasSub (needle : List Char) : List Char → Bool
  | [] => leadsWith needle []
  | c :: rest => leadsWith needle (c :: rest) || hasSub needle rest

/-- JS s.includes(q): q occurs as a contiguous substring of s. -/
def jsIncludes (s q : String) : Bool :=
  hasSub q.data s.data

/-- The per-market search predicate of the dashboard
(KalshiSentinelDashboard.jsx line 480): the lowercased title or ticker
(missing fields read as the empty string) contains the query. -/
def marketMatches (q : String) (m : Market) : Bool :=
  jsIncludes (jsLower (m.title.getD "")) q ||
    jsIncludes (jsLower (m.ticker.getD "")) q

/-- The dashboard market filter (KalshiSentinelDashboard.jsx lines
477-481): trim and lowercase the query; an empty query leaves the
loaded markets unchanged, otherwise keep the markets whose title or
ticker contains the query. -/
def filteredMarkets (markets : List Market) (query : String) :
    List Market :=
  let q := jsLower (jsTrim query)
  if q = "" then markets else markets.filter (marketMatches q)

/-- Concrete candidate "A" of the spec section 8 example (price 50,
ranked first). -/
def candA : Candidate :=
  { ticker := "A", side := .yes, limit_price_cents := 50,
    close_in_hours := 1, rank_score := 3 }

/-- Concrete candidate "B" of the spec section 8 example (price 30,
ranked second). -/
def candB : Candidate :=
  { ticker := "B", side := .yes, limit_price_cents := 30,
    close_in_hours := 1, rank_score := 2 }

/-- Concrete candidate "C" of the spec section 8 example (price 25,
ranked third). -/
def candC : Candidate :=
  { ticker := "C", side := .yes, limit_price_cents := 25,
    close_in_hours := 1, rank_score := 1 }

/-- A concrete cheap candidate used by witnesses (price 20, NO side). -/
def candD : Candidate :=
  { ticker := "D", side := .no, limit_price_cents := 20,
    close_in_hours := 3, rank_score := 8 }

/-- Concrete position of the spec section 8 example: YES, 10 contracts
at an average entry of 40 cents (cost basis 400). -/
def posA : Position :=
  { ticker := "A", side := .yes, qty := 10,
    avg_entry_cents := 40, cost_basis_cents := 400 }

/-- A concrete NO position on a ticker with no quote available. -/
def posB : Position :=
  { ticker := "B", side := .no, qty := 5,
    avg_entry_cents := 30, cost_basis_cents := 150 }

/-- A concrete quote source: ticker "A" quoted (yes_bid 55), every
other ticker unquoted. -/
def quotesAB : String → Option Quote := fun t =>
  if t = "A" then
    some { yes_bid := some 55, yes_ask := some 57,
           no_bid := some 43, no_ask := some 45 }
  else none

/-- A concrete ledger holding 2 YES contracts of "A" at 40 cents. -/
def ledA : Ledger :=
  [(("A", Side.yes),
    { qty := 2, avg_entry_cents := 40, cost_basis_cents := 80 })]

/-- A concrete loaded market record used by witnesses. -/
def mktRain : Market := { title := some "Rain", ticker := some "KXRAIN" }

/-- Another concrete loaded market record used by witnesses. -/
def mktSnow : Market := { title := some "Snow", ticker := some "KXSNOW" }

/-! ## Helper lemmas about the greedy allocation -/

theorem greedyAlloc_sum_le (cs : List Candidate) :
    ∀ b k, ((greedyAlloc cs b k).map
      (fun t => t.estimated_max_loss_cents)).sum ≤ b := by
  induction cs with
  | nil =>
    intro b k
    cases k <;> simp [greedyAlloc]
  | cons c cs ih =>
    intro b k
    cases k with
    | zero => simp [greedyAlloc]
    | succ k =>
      by_cases hn : b / c.limit_price_cents = 0
      · simpa [greedyAlloc, hn] using ih b (k + 1)
      · have hle : b / c.limit_price_cents * c.limit_price_cents ≤ b :=
          Nat.div_mul_le_self b c.limit_price_cents
        have hrest := ih (b - b / c.limit_price_cents * c.limit_price_cents) k
        simp only [greedyAlloc, hn, if_false, List.map_cons, List.sum_cons,
          mkTrade]
        omega

theorem greedyAlloc_length_le (cs : List Candidate) :
    ∀ b k, (greedyAlloc cs b k).length ≤ k := by
  induction cs with
  | nil =>
    intro b k
    cases k <;> simp [greedyAlloc]
  | cons c cs ih =>
    intro b k
    cases k with
    | zero => simp [greedyAlloc]
    | succ k =>
      by_cases hn : b / c.limit_price_cents = 0
      · simpa [greedyAlloc, hn] using ih b (k + 1)
      · have hrest := ih (b - b / c.limit_price_cents * c.limit_price_cents) k
        simp only [greedyAlloc, hn, if_false, List.length_cons]
        omega

theorem greedyAlloc_zero_budget (cs : List Candidate) :
    ∀ k, greedyAlloc cs 0 k = [] := by
  induction cs with
  | nil =>
    intro k
    cases k <;> simp [greedyAlloc]
  | cons c cs ih =>
    intro k
    cases k with
    | zero => simp [greedyAlloc]
    | succ k => simpa [greedyAlloc, Nat.zero_div] using ih (k + 1)

/-! ## Claim C1 -/

/-- C1: for every valid input, the sum of estimated_max_loss_cents over
the proposals returned by propose_trades never exceeds budget_cents. -/
theorem C1_propose_trades_budget_bound (h b : Int) (m : Nat)
    (cs : List Candidate) (ts : List ProposedTrade)
    (hok : propose_trades h b m cs = .ok ts) :
    (((ts.map (fun t => t.estimated_max_loss_cents)).sum : Nat) : Int) ≤ b := by
  unfold propose_trades at hok
  split_ifs at hok with hb hh
  have hts : ts = greedyAlloc (cs.filter (candEligible h)) b.toNat m := by
    injection hok with h2
    exact h2.symm
  subst hts
  have hsum := greedyAlloc_sum_le (cs.filter (candEligible h)) b.toNat m
  have hb2 : 0 ≤ b := not_lt.mp hb
  omega

/-- Witness for C1 on the spec section 8 example: horizon 24 hours,
budget 1000 cents, max 3 trades, candidates priced 50, 30, 25; the run
allocates 20 contracts of "A" and the committed sum stays within the
budget. -/
theorem C1_witness :
    ((([mkTrade candA 20].map
      (fun t => t.estimated_max_loss_cents)).sum : Nat) : Int) ≤ 1000 :=
  C1_propose_trades_budget_bound 24 1000 3 [candA, candB, candC]
    [mkTrade candA 20] (by rfl)

/-! ## Claim C2 -/

/-- C2: for every valid input, propose_trades returns at most
max_trades proposals. -/
theorem C2_propose_trades_count_bound (h b : Int) (m : Nat)
    (cs : List Candidate) (ts : List ProposedTrade)
    (hok : propose_trades h b m cs = .ok ts) :
    ts.length ≤ m := by
  unfold propose_trades at hok
  split_ifs at hok with hb hh
  have hts : ts = greedyAlloc (cs.filter (candEligible h)) b.toNat m := by
    injection hok with h2
    exact h2.symm
  subst hts
  exact greedyAlloc_length_le (cs.filter (candEligible h)) b.toNat m

/-- Witness for C2: a run with budget 100 cents and max_trades 2 over
candidates priced 30 and 20 returns two proposals, within the cap. -/
theorem C2_witness : [mkTrade candB 3].length ≤ 2 :=
  C2_propose_trades_count_bound 24 100 2 [candB, candD]
    [mkTrade candB 3] (by rfl)

/-! ## Claim C3 -/

theorem greedyAlloc_zero_trades (cs : List Candidate) (b : Nat) :
    greedyAlloc cs b 0 = [] := by
  cases cs <;> rfl

/-- C3: propose_trades implements the stated greedy bounded allocation.
The loop stops when the accept cap is reached or the list is exhausted;
an affordable candidate is allocated the largest integer contract count
whose cost fits the remaining budget (cost within budget, and every
contract count whose cost fits is at most the chosen one), the cost is
deducted and the accept cap decremented; a candidate whose one-contract
cost exceeds the remaining budget is skipped with the cap unchanged;
valid inputs run the loop over the horizon-filtered candidate list,
which is an order-preserving (stable) sublist of the received list. -/
theorem C3_propose_trades_greedy (c : Candidate) (cs : List Candidate)
    (b k : Nat) (hh hb : Int) :
    greedyAlloc (c :: cs) b 0 = [] ∧
    greedyAlloc [] b k = [] ∧
    (0 < c.limit_price_cents → c.limit_price_cents ≤ b →
      greedyAlloc (c :: cs) b (k + 1) =
        mkTrade c (b / c.limit_price_cents) ::
          greedyAlloc cs (b - b / c.limit_price_cents * c.limit_price_cents)
            k ∧
      b / c.limit_price_cents * c.limit_price_cents ≤ b ∧
      (∀ n : Nat, n * c.limit_price_cents ≤ b →
        n ≤ b / c.limit_price_cents)) ∧
    (b < c.limit_price_cents →
      greedyAlloc (c :: cs) b (k + 1) = greedyAlloc cs b (k + 1)) ∧
    (0 ≤ hh → 0 ≤ hb →
      propose_trades hh hb k (c :: cs) =
        .ok (greedyAlloc ((c :: cs).filter (candEligible hh)) hb.toNat k)) ∧
    ((c :: cs).filter (candEligible hh)).Sublist (c :: cs) := by
  refine ⟨rfl, by cases k <;> rfl, ?_, ?_, ?_, List.filter_sublist _⟩
  · intro hpos hle
    have hne : b / c.limit_price_cents ≠ 0 := by
      have : 1 ≤ b / c.limit_price_cents :=
        (Nat.one_le_div_iff hpos).mpr hle
      omega
    refine ⟨by simp [greedyAlloc, hne], Nat.div_mul_le_self b _, ?_⟩
    intro n hn
    exact (Nat.le_div_iff_mul_le hpos).mpr hn
  · intro hlt
    simp [greedyAlloc, Nat.div_eq_of_lt hlt]
  · intro hhh hhb
    simp [propose_trades, not_lt.mpr hhb, not_lt.mpr hhh]

/-- Witness for C3: with budget 1000 and cap 2, candidate "A" at price
50 is allocated 1000/50 = 20 contracts (and any affordable count is at
most 20), the whole budget is consumed, and the loop continues on the
rest. -/
theorem C3_witness :
    greedyAlloc [candA, candB] 1000 2 =
      mkTrade candA 20 :: greedyAlloc [candB] 0 1 ∧ 5 ≤ 1000 / 50 := by
  have h := (C3_propose_trades_greedy candA [candB] 1000 1 24 1000).2.2.1
    (by decide) (by decide)
  exact ⟨h.1, h.2.2 5 (by decide)⟩

/-! ## Claim C4 -/

/-- C4: propose_trades rejects a negative budget with
InvalidBudgetError and a negative horizon with InvalidHorizonError
(budget checked first), succeeds on every valid input (running out of
candidates is a successful partial result, never an error), and returns
the empty sequence when budget_cents is zero or max_trades is zero.
The engine is a pure function, so a rejected call touches no state. -/
theorem C4_propose_trades_errors (h b : Int) (m : Nat)
    (cs : List Candidate) :
    (propose_trades h b m cs = .error .invalidBudget ↔ b < 0) ∧
    (propose_trades h b m cs = .error .invalidHorizon ↔ 0 ≤ b ∧ h < 0) ∧
    (0 ≤ b → 0 ≤ h → ∃ ts, propose_trades h b m cs = .ok ts) ∧
    (0 ≤ h → propose_trades h 0 m cs = .ok []) ∧
    (0 ≤ b → 0 ≤ h → propose_trades h b 0 cs = .ok []) := by
  refine ⟨?_, ?_, ?_, ?_, ?_⟩
  · unfold propose_trades
    split_ifs with h1 h2 <;> simp_all
  · unfold propose_trades
    split_ifs with h1 h2 <;> simp_all
  · intro hb hh
    exact ⟨greedyAlloc (cs.filter (candEligible h)) b.toNat m,
      by simp [propose_trades, not_lt.mpr hb, not_lt.mpr hh]⟩
  · intro hh
    simp [propose_trades, not_lt.mpr hh, greedyAlloc_zero_budget]
  · intro hb hh
    simp [propose_trades, not_lt.mpr hb, not_lt.mpr hh,
      greedyAlloc_zero_trades]

/-- Witness for C4: a negative budget and a negative horizon are
rejected with their respective errors, while a zero budget and a zero
trade cap both yield an empty successful run. -/
theorem C4_witness :
    propose_trades 24 (-5) 3 [candA] = .error .invalidBudget ∧
    propose_trades (-2) 100 3 [candA] = .error .invalidHorizon ∧
    propose_trades 24 0 3 [candA] = .ok [] ∧
    propose_trades 24 100 0 [candA] = .ok [] := by
  refine ⟨?_, ?_, ?_, ?_⟩
  · exact (C4_propose_trades_errors 24 (-5) 3 [candA]).1.mpr (by decide)
  · exact (C4_propose_trades_errors (-2) 100 3 [candA]).2.1.mpr
      ⟨by decide, by decide⟩
  · exact (C4_propose_trades_errors 24 0 3 [candA]).2.2.2.1 (by decide)
  · exact (C4_propose_trades_errors 24 100 0 [candA]).2.2.2.2
      (by decide) (by decide)

/-! ## Helper lemmas about the valuation calculator -/

theorem mkRow_best_exit_bid (quotes : String → Option Quote)
    (p : Position) : (mkRow quotes p).best_exit_bid = exitQuote quotes p :=
  rfl

theorem totalsOf_unreal_eq (rows : List ValuationRow)
    (h : ∀ r ∈ rows, ∀ l u, r.liq_value_cents = some l →
      r.unreal_pnl_cents = some u → u = l - (r.cost_basis_cents : Int)) :
    (totalsOf rows).unreal_pnl_cents =
      (totalsOf rows).liq_value_cents - (totalsOf rows).cost_basis_cents := by
  induction rows with
  | nil => simp [totalsOf]
  | cons r rs ih =>
    have hr := h r (List.mem_cons_self r rs)
    have ihr := ih (fun x hx => h x (List.mem_cons_of_mem r hx))
    cases hl : r.liq_value_cents with
    | none => simpa [totalsOf, hl] using ihr
    | some l =>
      cases hu : r.unreal_pnl_cents with
      | none => simpa [totalsOf, hl, hu] using ihr
      | some u =>
        have : u = l - (r.cost_basis_cents : Int) := hr l u hl hu
        simp only [totalsOf, List.foldr_cons, hl, hu] at *
        rw [this]
        omega

theorem mkRow_consistent (quotes : String → Option Quote) (p : Position) :
    ∀ l u, (mkRow quotes p).liq_value_cents = some l →
      (mkRow quotes p).unreal_pnl_cents = some u →
      u = l - ((mkRow quotes p).cost_basis_cents : Int) := by
  intro l u hl hu
  cases hq : exitQuote quotes p with
  | none => simp [mkRow, hq] at hl
  | some b =>
    simp [mkRow, hq] at hl hu ⊢
    omega

theorem totalsOf_filter_known (rows : List ValuationRow) :
    totalsOf rows =
      totalsOf (rows.filter
        (fun r => r.liq_value_cents.isSome && r.unreal_pnl_cents.isSome)) := by
  induction rows with
  | nil => rfl
  | cons r rs ih =>
    cases hl : r.liq_value_cents with
    | none => simpa [totalsOf, List.filter_cons, hl] using ih
    | some l =>
      cases hu : r.unreal_pnl_cents with
      | none => simpa [totalsOf, List.filter_cons, hl, hu] using ih
      | some u =>
        simp only [totalsOf, List.filter_cons, hl, hu, Option.isSome_some,
          Bool.and_self, if_true, List.foldr_cons] at *
        rw [ih]

/-! ## Claim C5 -/

/-- C5: in every valuation snapshot produced by value_portfolio, the
unrealized P&L total equals the liquidation-value total minus the
cost-basis total, totals being summed only over rows with known
quotes. -/
theorem C5_totals_invariant (positions : List Position)
    (quotes : String → Option Quote) :
    (value_portfolio positions quotes).totals.unreal_pnl_cents =
      (value_portfolio positions quotes).totals.liq_value_cents -
        (value_portfolio positions quotes).totals.cost_basis_cents := by
  apply totalsOf_unreal_eq
  intro r hr l u hl hu
  obtain ⟨p, _, rfl⟩ := List.mem_map.mp hr
  exact mkRow_consistent quotes p l u hl hu

/-! ## Claim C6 -/

theorem value_portfolio_rows (ps : List Position)
    (qs : String → Option Quote) :
    (value_portfolio ps qs).rows = ps.map (mkRow qs) :=
  rfl

theorem mkRow_known_eq_bid (qs : String → Option Quote) (p : Position) :
    ((mkRow qs p).liq_value_cents.isSome &&
      (mkRow qs p).unreal_pnl_cents.isSome) =
      (mkRow qs p).best_exit_bid.isSome := by
  cases hq : exitQuote qs p <;> simp [mkRow, hq]

theorem value_portfolio_excluded (ps : List Position)
    (qs : String → Option Quote) :
    (value_portfolio ps qs).excluded_rows =
      (ps.filter (fun q => (exitQuote qs q).isNone)).length := by
  show ((ps.map (mkRow qs)).filter
    (fun r => r.best_exit_bid.isNone)).length = _
  induction ps with
  | nil => rfl
  | cons p ps ih =>
    cases hq : exitQuote qs p <;>
      simp_all [List.filter_cons, mkRow_best_exit_bid, hq]

/-- C6: a position whose side-selected exit quote is absent still gets
a valuation row, with best_exit_bid, liq_value_cents and
unreal_pnl_cents all reported unknown rather than zero; such rows are
excluded from totals (totals equal the totals over the known-quote rows
alone), the snapshot reports how many rows were excluded, and the
remaining totals stay internally consistent. -/
theorem C6_missing_quote_row (ps : List Position)
    (qs : String → Option Quote) (p : Position)
    (hmem : p ∈ ps) (hmiss : exitQuote qs p = none) :
    mkRow qs p ∈ (value_portfolio ps qs).rows ∧
    (mkRow qs p).best_exit_bid = none ∧
    (mkRow qs p).liq_value_cents = none ∧
    (mkRow qs p).unreal_pnl_cents = none ∧
    (value_portfolio ps qs).excluded_rows =
      (ps.filter (fun q => (exitQuote qs q).isNone)).length ∧
    (value_portfolio ps qs).totals =
      totalsOf ((value_portfolio ps qs).rows.filter
        (fun r => r.best_exit_bid.isSome)) ∧
    (value_portfolio ps qs).totals.unreal_pnl_cents =
      (value_portfolio ps qs).totals.liq_value_cents -
        (value_portfolio ps qs).totals.cost_basis_cents := by
  refine ⟨List.mem_map_of_mem (mkRow qs) hmem,
    by simp [mkRow, hmiss], by simp [mkRow, hmiss], by simp [mkRow, hmiss],
    value_portfolio_excluded ps qs, ?_, ?_⟩
  · show totalsOf (ps.map (mkRow qs)) = _
    rw [totalsOf_filter_known (ps.map (mkRow qs)), value_portfolio_rows]
    congr 1
    apply List.filter_congr
    intro r hr
    obtain ⟨q, _, rfl⟩ := List.mem_map.mp hr
    exact mkRow_known_eq_bid qs q
  · apply totalsOf_unreal_eq
    intro r hr l u hl hu
    obtain ⟨q, _, rfl⟩ := List.mem_map.mp hr
    exact mkRow_consistent qs q l u hl hu

/-- Witness for C6: over positions [posA, posB] where only "A" is
quoted, posB's row is present with unknown exit bid, liquidation value
and P&L, one row is reported excluded, and the totals remain
internally consistent over the quoted rows. -/
theorem C6_witness :
    mkRow quotesAB posB ∈ (value_portfolio [posA, posB] quotesAB).rows ∧
    (mkRow quotesAB posB).best_exit_bid = none ∧
    (mkRow quotesAB posB).liq_value_cents = none ∧
    (mkRow quotesAB posB).unreal_pnl_cents = none ∧
    (value_portfolio [posA, posB] quotesAB).excluded_rows =
      ([posA, posB].filter
        (fun q => (exitQuote quotesAB q).isNone)).length ∧
    (value_portfolio [posA, posB] quotesAB).totals =
      totalsOf ((value_portfolio [posA, posB] quotesAB).rows.filter
        (fun r => r.best_exit_bid.isSome)) ∧
    (value_portfolio [posA, posB] quotesAB).totals.unreal_pnl_cents =
      (value_portfolio [posA, posB] quotesAB).totals.liq_value_cents -
        (value_portfolio [posA, posB] quotesAB).totals.cost_basis_cents :=
  C6_missing_quote_row [posA, posB] quotesAB posB (by decide) (by rfl)

/-! ## Claim C8 -/

/-- C8: a position with a known side-selected exit bid values at
liq_value_cents = qty × best_exit_bid and unreal_pnl_cents =
liq_value_cents − cost_basis_cents, and its row appears in every
snapshot over a position list containing it. -/
theorem C8_row_formula (qs : String → Option Quote) (p : Position)
    (b : Nat) (hq : exitQuote qs p = some b) :
    (mkRow qs p).best_exit_bid = some b ∧
    (mkRow qs p).liq_value_cents = some ((p.qty : Int) * b) ∧
    (mkRow qs p).unreal_pnl_cents =
      some ((p.qty : Int) * b - (p.cost_basis_cents : Int)) ∧
    ∀ ps, p ∈ ps → mkRow qs p ∈ (value_portfolio ps qs).rows := by
  refine ⟨by simp [mkRow, hq], by simp [mkRow, hq], by simp [mkRow, hq], ?_⟩
  intro ps hmem
  exact List.mem_map_of_mem (mkRow qs) hmem

/-- Witness for C8 on the spec section 8 example: side yes, qty 10,
avg_entry 40 (cost basis 400) with yes_bid 55 values at 550 cents with
unrealized P&L 150 cents. -/
theorem C8_witness :
    (mkRow quotesAB posA).liq_value_cents = some 550 ∧
    (mkRow quotesAB posA).unreal_pnl_cents = some 150 := by
  have h := C8_row_formula quotesAB posA 55 (by rfl)
  exact ⟨by simpa using h.2.1, by simpa using h.2.2.1⟩

/-! ## Helper lemmas about the position ledger -/

theorem mem_setPos (key : String × Side) (p : LedgerPos) :
    ∀ led, ∀ kp ∈ setPos led key p, kp ∈ led ∨ kp = (key, p) := by
  intro led
  induction led with
  | nil =>
    intro kp hkp
    simp only [setPos, List.mem_singleton] at hkp
    exact Or.inr hkp
  | cons e rest ih =>
    obtain ⟨k, q⟩ := e
    intro kp hkp
    by_cases hk : k = key
    · simp only [setPos, if_pos hk, List.mem_cons] at hkp
      rcases hkp with h | h
      · exact Or.inr h
      · exact Or.inl (List.mem_cons_of_mem _ h)
    · simp only [setPos, if_neg hk, List.mem_cons] at hkp
      rcases hkp with h | h
      · exact Or.inl (by simp [h])
      · rcases ih kp h with h2 | h2
        · exact Or.inl (List.mem_cons_of_mem _ h2)
        · exact Or.inr h2

theorem mem_removePos (key : String × Side) :
    ∀ led, ∀ kp ∈ removePos led key, kp ∈ led := by
  intro led
  induction led with
  | nil =>
    intro kp hkp
    simp [removePos] at hkp
  | cons e rest ih =>
    obtain ⟨k, q⟩ := e
    intro kp hkp
    by_cases hk : k = key
    · rw [removePos, if_pos hk] at hkp
      exact List.mem_cons_of_mem _ hkp
    · rw [removePos, if_neg hk] at hkp
      rcases List.mem_cons.mp hkp with h | h
      · exact h ▸ List.mem_cons_self _ _
      · exact List.mem_cons_of_mem _ (ih kp h)

theorem apply_fill_none (led : Ledger) (t : String) (s : Side)
    (d : Int) (pr : Nat) (hlk : lookupPos led (t, s) = none) :
    apply_fill led t s d pr =
      if d < 0 then .error .invalidFill
      else if d = 0 then .ok led
      else .ok (setPos led (t, s) ⟨d.toNat, pr, d.toNat * pr⟩) := by
  unfold apply_fill
  rw [hlk]

theorem apply_fill_some (led : Ledger) (t : String) (s : Side)
    (d : Int) (pr : Nat) (p : LedgerPos)
    (hlk : lookupPos led (t, s) = some p) :
    apply_fill led t s d pr =
      if 0 ≤ d then
        .ok (setPos led (t, s)
          ⟨p.qty + d.toNat,
           (p.cost_basis_cents + d.toNat * pr) / (p.qty + d.toNat),
           (p.qty + d.toNat) *
             ((p.cost_basis_cents + d.toNat * pr) / (p.qty + d.toNat))⟩)
      else if (p.qty : Int) + d < 0 then .error .invalidFill
      else if (p.qty : Int) + d = 0 then .ok (removePos led (t, s))
      else
        .ok (setPos led (t, s)
          ⟨((p.qty : Int) + d).toNat, p.avg_entry_cents,
           ((p.qty : Int) + d).toNat * p.avg_entry_cents⟩) := by
  unfold apply_fill
  rw [hlk]

theorem apply_fill_wf (led led2 : Ledger) (t : String) (s : Side)
    (d : Int) (pr : Nat)
    (hok : apply_fill led t s d pr = .ok led2) (hwf : WfLedger led) :
    WfLedger led2 := by
  cases hlk : lookupPos led (t, s) with
  | none =>
    rw [apply_fill_none led t s d pr hlk] at hok
    split_ifs at hok with h1 h2
    · injection hok with he
      exact he ▸ hwf
    · injection hok with he
      subst he
      intro kp hkp
      rcases mem_setPos (t, s) _ led kp hkp with h | h
      · exact hwf kp h
      · rw [h]
  | some p =>
    rw [apply_fill_some led t s d pr p hlk] at hok
    split_ifs at hok with h1 h2 h3
    · injection hok with he
      subst he
      intro kp hkp
      rcases mem_setPos (t, s) _ led kp hkp with h | h
      · exact hwf kp h
      · rw [h]
    · injection hok with he
      subst he
      intro kp hkp
      exact hwf kp (mem_removePos (t, s) led kp hkp)
    · injection hok with he
      subst he
      intro kp hkp
      rcases mem_setPos (t, s) _ led kp hkp with h | h
      · exact hwf kp h
      · rw [h]

theorem runFills_wf :
    ∀ (fs : List FillReq) (led led2 : Ledger), WfLedger led →
      runFills led fs = .ok led2 → WfLedger led2 := by
  intro fs
  induction fs with
  | nil =>
    intro led led2 hwf h
    injection h with he
    exact he ▸ hwf
  | cons f fs ih =>
    intro led led2 hwf h
    rw [runFills] at h
    cases happ : apply_fill led f.ticker f.side f.qty_delta f.price_cents with
    | error e => rw [happ] at h; cases h
    | ok led3 =>
      rw [happ] at h
      exact ih led3 led2
        (apply_fill_wf led led3 f.ticker f.side f.qty_delta f.price_cents
          happ hwf) h

/-! ## Claim C7 -/

/-- C7: after any sequence of apply_fill calls that respects the
non-negative-quantity invariant, every ledger position satisfies
cost_basis_cents = qty × avg_entry_cents; a fill that would drive
quantity negative (an over-reduction of an existing position, or any
reduction with no position held) fails with InvalidFillError and leaves
the ledger unchanged. -/
theorem C7_ledger_invariant :
    (∀ (led led2 : Ledger) (fs : List FillReq), WfLedger led →
      runFills led fs = .ok led2 → WfLedger led2) ∧
    (∀ (led : Ledger) (t : String) (s : Side) (d : Int) (pr : Nat)
      (p : LedgerPos), lookupPos led (t, s) = some p → d < 0 →
      (p.qty : Int) + d < 0 →
      apply_fill led t s d pr = .error .invalidFill ∧
      applyFillOrKeep led t s d pr = led) ∧
    (∀ (led : Ledger) (t : String) (s : Side) (d : Int) (pr : Nat),
      lookupPos led (t, s) = none → d < 0 →
      apply_fill led t s d pr = .error .invalidFill ∧
      applyFillOrKeep led t s d pr = led) := by
  refine ⟨fun led led2 fs hwf h => runFills_wf fs led led2 hwf h, ?_, ?_⟩
  · intro led t s d pr p hlk hd hneg
    have herr : apply_fill led t s d pr = .error .invalidFill := by
      rw [apply_fill_some led t s d pr p hlk,
        if_neg (not_le.mpr hd), if_pos hneg]
    exact ⟨herr, by rw [applyFillOrKeep, herr]⟩
  · intro led t s d pr hlk hd
    have herr : apply_fill led t s d pr = .error .invalidFill := by
      rw [apply_fill_none led t s d pr hlk, if_pos hd]
    exact ⟨herr, by rw [applyFillOrKeep, herr]⟩

/-- Witness for C7: buying 2 contracts of "A" at 40 cents from an empty
ledger yields a ledger satisfying the cost-basis invariant, and selling
3 contracts from it is rejected with InvalidFillError, leaving the
ledger unchanged. -/
theorem C7_witness :
    WfLedger ledA ∧
    apply_fill ledA "A" Side.yes (-3) 0 = .error .invalidFill ∧
    applyFillOrKeep ledA "A" Side.yes (-3) 0 = ledA := by
  have h2 := C7_ledger_invariant.2.1 ledA "A" Side.yes (-3) 0
    { qty := 2, avg_entry_cents := 40, cost_basis_cents := 80 }
    (by rfl) (by decide) (by decide)
  refine ⟨?_, h2.1, h2.2⟩
  exact C7_ledger_invariant.1 [] ledA [⟨"A", Side.yes, 2, 40⟩]
    (fun kp hkp => absurd hkp (List.not_mem_nil kp)) (by rfl)

/-! ## Claim C9 -/

/-- C9: the dashboard paper-run POST body carries exactly the three
keys hours_ahead, budget_dollars and max_trades, in that order, bound
to the current numeric input values; the budget crosses the interface
in dollars and is converted to integer cents by rounding
budget_dollars × 100, so a whole-cent dollar amount converts exactly. -/
theorem C9_paper_run_request (h b m : ℚ) :
    (paperRunBody h b m).map Prod.fst =
      ["hours_ahead", "budget_dollars", "max_trades"] ∧
    (paperRunBody h b m).map Prod.snd = [h, b, m] ∧
    (∀ n : Int, budgetCentsOfDollars ((n : ℚ) / 100) = n) := by
  refine ⟨rfl, rfl, ?_⟩
  intro n
  unfold budgetCentsOfDollars
  rw [div_mul_cancel₀ _ (by norm_num : (100 : ℚ) ≠ 0)]
  exact round_intCast n

/-! ## Claim C10 -/

/-- C10: the dashboard market filter returns the loaded markets
unchanged when the whitespace-trimmed, lowercased query is empty, and
otherwise returns exactly the order-preserving subsequence (a filter,
hence a sublist) of markets whose lowercased title or ticker contains
the query; a market with missing title and ticker is treated exactly
as one with empty-string fields, never an error. -/
theorem C10_market_filter (markets : List Market) (query : String) :
    (jsLower (jsTrim query) = "" → filteredMarkets markets query = markets) ∧
    (jsLower (jsTrim query) ≠ "" →
      filteredMarkets markets query =
        markets.filter (marketMatches (jsLower (jsTrim query))) ∧
      (filteredMarkets markets query).Sublist markets ∧
      (∀ m ∈ filteredMarkets markets query,
        marketMatches (jsLower (jsTrim query)) m = true) ∧
      (∀ m ∈ markets, marketMatches (jsLower (jsTrim query)) m = true →
        m ∈ filteredMarkets markets query)) ∧
    (∀ q2, marketMatches q2 { title := none, ticker := none } =
      marketMatches q2 { title := some "", ticker := some "" }) := by
  refine ⟨?_, ?_, fun q2 => rfl⟩
  · intro hq
    simp [filteredMarkets, hq]
  · intro hq
    have he : filteredMarkets markets query =
        markets.filter (marketMatches (jsLower (jsTrim query))) := by
      simp [filteredMarkets, hq]
    refine ⟨he, ?_, ?_, ?_⟩
    · rw [he]
      exact List.filter_sublist _
    · intro m hm
      rw [he] at hm
      exact (List.mem_filter.mp hm).2
    · intro m hm hmatch
      rw [he]
      exact List.mem_filter.mpr ⟨hm, hmatch⟩

/-- Witness for C10: the query "  Ra " (trimmed and lowercased to
"ra") keeps exactly the matching market, and the empty query leaves
the loaded markets unchanged. -/
theorem C10_witness :
    filteredMarkets [mktRain, mktSnow] "  Ra " =
      [mktRain, mktSnow].filter (marketMatches (jsLower (jsTrim "  Ra "))) ∧
    filteredMarkets [mktRain, mktSnow] "  Ra " = [mktRain] ∧
    filteredMarkets [mktRain, mktSnow] "" = [mktRain, mktSnow] := by
  have h := (C10_market_filter [mktRain, mktSnow] "  Ra ").2.1 (by decide)
  have h0 := (C10_market_filter [mktRain, mktSnow] "").1 (by rfl)
  refine ⟨h.1, ?_, h0⟩
  rw [h.1]
  decide
